import Mathlib

/-!
Verification of the HTML element extractor in `src/b30/scraper.rs`
(`find_elements_by_class`, `find_first_anchor`, `Element::get_attr`).

Strings are modelled as `List Char`; byte positions of the Rust code become
character indices.  Each regular expression of the source is embedded as a
dedicated matcher that follows the regex's leftmost-match semantics:
a matcher `...At` decides a match anchored at the start of a suffix, and
`scanFirst` scans all start positions left to right, mirroring how the
regex engine finds the leftmost match.
-/

namespace B30

/-- Rust `\s` / `char::is_whitespace` restricted to the ASCII range. -/
def isWsChar (ch : Char) : Bool :=
  ch = ' ' || ch = '\t' || ch = '\n' || ch = '\r' || ch = Char.ofNat 11 || ch = Char.ofNat 12

/-- Regex class `[a-zA-Z]`. -/
def isAlphaCh (ch : Char) : Bool :=
  ('a' ≤ ch && ch ≤ 'z') || ('A' ≤ ch && ch ≤ 'Z')

/-- Regex class `[0-9]`. -/
def isDigitCh (ch : Char) : Bool := '0' ≤ ch && ch ≤ '9'

/-- Regex class `[a-zA-Z0-9]`. -/
def isAlnumCh (ch : Char) : Bool := isAlphaCh ch || isDigitCh ch

/-- Regex class `[a-zA-Z0-9-]` used for attribute names. -/
def isAttrNameCh (ch : Char) : Bool := isAlnumCh ch || ch = '-'

/-- The double-quote character. -/
def quoteD : Char := Char.ofNat 34

/-- The single-quote character. -/
def quoteS : Char := Char.ofNat 39

/-- Regex class `['"]`. -/
def isQuoteCh (ch : Char) : Bool := ch = quoteD || ch = quoteS

/-- `litAt pat l` holds when the literal string `pat` occurs at the start
of `l` (Rust `str::find`'s per-position test for a literal needle). -/
def litAt : List Char → List Char → Bool
  | [], _ => true
  | _ :: _, [] => false
  | p :: ps, c :: cs => p = c && litAt ps cs

/-- Leftmost-match driver shared by all embedded regex `find`s: try the
anchored matcher `f` at every suffix from left to right and return the
first index where it matches, together with the match data. -/
def scanFirst {α : Type} (f : List Char → Option α) : List Char → Option (Nat × α)
  | [] => (f []).map (fun a => (0, a))
  | c :: cs =>
    match f (c :: cs) with
    | some a => some (0, a)
    | none => (scanFirst f cs).map (fun r => (r.1 + 1, r.2))

/-- Anchored probe for a literal needle, as an `Option`-valued matcher. -/
def litProbe (pat : List Char) (l : List Char) : Option Unit :=
  if litAt pat l then some () else none

/-- Rust `str::find(&lit)`: index of the leftmost occurrence of a literal. -/
def findLit (pat l : List Char) : Option Nat :=
  (scanFirst (litProbe pat) l).map (fun r => r.1)

/-- Anchored match of `open_tag_re = <([a-zA-Z][a-zA-Z0-9]*)\s*([^>]*)>`:
returns the tag name (group 1), the raw attribute text (group 2) and the
length of the whole match. -/
def openTagAt : List Char → Option (List Char × List Char × Nat)
  | '<' :: c :: rest =>
    if isAlphaCh c then
      match ((rest.dropWhile isAlnumCh).dropWhile isWsChar).dropWhile (fun ch => ch ≠ '>') with
      | '>' :: r4 =>
        some (c :: rest.takeWhile isAlnumCh,
          ((rest.dropWhile isAlnumCh).dropWhile isWsChar).takeWhile (fun ch => ch ≠ '>'),
          ('<' :: c :: rest).length - r4.length)
      | _ => none
    else none
  | _ => none

/-- `open_tag_re.find` / `.captures` on a text: leftmost opening tag,
as (start index, tag name, raw attribute text, match length). -/
def findOpenTag (l : List Char) : Option (Nat × List Char × List Char × Nat) :=
  scanFirst openTagAt l

/-- Anchored match of `class_re = class\s*=\s*['"]([^'"]*?)['"]`:
returns the captured class value. -/
def classValAt (l : List Char) : Option (List Char) :=
  if litAt ('c' :: 'l' :: 'a' :: 's' :: 's' :: []) l then
    match (l.drop 5).dropWhile isWsChar with
    | '=' :: r2 =>
      match r2.dropWhile isWsChar with
      | q :: r4 =>
        if isQuoteCh q then
          match r4.dropWhile (fun ch => !isQuoteCh ch) with
          | _ :: _ => some (r4.takeWhile (fun ch => !isQuoteCh ch))
          | [] => none
        else none
      | [] => none
    | _ => none
  else none

/-- `class_re.captures(attrs_str)`: value of the leftmost class match. -/
def classValue (attrs : List Char) : Option (List Char) :=
  (scanFirst classValAt attrs).map (fun r => r.2)

/-- Rust `str::split_whitespace`, worker: `cur` is the reversed current word. -/
def splitWsGo (cur : List Char) : List Char → List (List Char)
  | [] => if cur.isEmpty then [] else [cur.reverse]
  | c :: cs =>
    if isWsChar c then
      if cur.isEmpty then splitWsGo [] cs else cur.reverse :: splitWsGo [] cs
    else splitWsGo (c :: cur) cs

/-- Rust `str::split_whitespace`: whitespace-separated words, no empties. -/
def splitWs (l : List Char) : List (List Char) := splitWsGo [] l

/-- The source's class test: the leftmost `class_re` capture, split on
whitespace, has a member equal to `class_name`
(`class_value.split_whitespace().any(|class| class == class_name)`). -/
def hasClassTok (attrs cls : List Char) : Bool :=
  match classValue attrs with
  | some v => (splitWs v).any (fun t => t == cls)
  | none => false

/-- Anchored match of `attr_re = ([a-zA-Z][a-zA-Z0-9-]*)\s*=\s*['"]([^'"]*?)['"]`:
returns the (name, value) pair and the length of the whole match. -/
def attrAt : List Char → Option ((List Char × List Char) × Nat)
  | [] => none
  | c :: cs =>
    if isAlphaCh c then
      match (cs.dropWhile isAttrNameCh).dropWhile isWsChar with
      | '=' :: r3 =>
        match r3.dropWhile isWsChar with
        | q :: r5 =>
          if isQuoteCh q then
            match r5.dropWhile (fun ch => !isQuoteCh ch) with
            | _ :: r7 =>
              some ((c :: cs.takeWhile isAttrNameCh, r5.takeWhile (fun ch => !isQuoteCh ch)),
                (c :: cs).length - r7.length)
            | [] => none
          else none
        | [] => none
      | _ => none
    else none

/-- `attr_re.captures_iter`, one step per iteration: find the leftmost
attribute match, emit its pair, continue after the end of the match. -/
def parseAttrsGo : Nat → List Char → List (List Char × List Char)
  | 0, _ => []
  | fuel + 1, l =>
    match scanFirst attrAt l with
    | some (i, pair, mlen) => pair :: parseAttrsGo fuel (l.drop (i + mlen))
    | none => []

/-- The attribute parser shared by both extractors (lines 98-106 and
147-154 of `scraper.rs`). -/
def parseAttrs (l : List Char) : List (List Char × List Char) :=
  parseAttrsGo (l.length + 1) l

/-- Rust `str::trim` (ASCII whitespace). -/
def trimChars (l : List Char) : List Char :=
  ((l.dropWhile isWsChar).reverse.dropWhile isWsChar).reverse

/-- `Element` of `scraper.rs`. -/
structure Element where
  tag_name : List Char
  attributes : List (List Char × List Char)
  content : List Char
deriving DecidableEq

/-- `Element::get_attr`: first pair whose key equals `name`. -/
def Element.get_attr (e : Element) (name : List Char) : Option (List Char) :=
  (e.attributes.find? (fun p => p.1 == name)).map (fun p => p.2)

/-- `Element::get_content`. -/
def Element.get_content (e : Element) : List Char := e.content

/-- `format!("</{}>", tag_name)`. -/
def closeTagLit (name : List Char) : List Char :=
  '<' :: '/' :: (name ++ ['>'])

/-- The balanced-close resolution loop of `find_elements_by_class`
(lines 57-94): from `pos`, repeatedly find the next occurrence of the
literal open prefix and of the literal closing tag; the earlier one wins.
Returns the absolute start index of the closing tag that brings the
depth counter to zero, or `none` when the candidate is unbalanced.
`fuel` bounds the iteration count; `html.length + 1` is always enough. -/
def resolveEnd (html openLit closeLit : List Char) (fuel : Nat) (depth : Int)
    (pos : Nat) : Option Nat :=
  match fuel with
  | 0 => none
  | fuel + 1 =>
    if pos < html.length then
      match findLit openLit (html.drop pos), findLit closeLit (html.drop pos) with
      | some o, some c =>
        if o < c then
          resolveEnd html openLit closeLit fuel (depth + 1) (pos + o + 1)
        else if depth - 1 = 0 then some (pos + c)
        else resolveEnd html openLit closeLit fuel (depth - 1) (pos + c + closeLit.length)
      | none, some c =>
        if depth - 1 = 0 then some (pos + c)
        else resolveEnd html openLit closeLit fuel (depth - 1) (pos + c + closeLit.length)
      | _, _ => none
    else none

/-- A match record of the main scan: absolute start of the opening tag,
absolute end of the opening tag, absolute start of the matching closing
tag, the raw attribute text, and the constructed `Element`. -/
structure Found where
  openStart : Nat
  tagEnd : Nat
  contentEnd : Nat
  rawAttrs : List Char
  elem : Element
deriving DecidableEq

/-- The scan loop of `find_elements_by_class` (lines 35-124), annotated
with the positions it computes.  `fuel` bounds the number of loop
iterations; `html.length + 1` is always enough. -/
def findElemsAux (html cls : List Char) : Nat → Nat → List Found
  | 0, _ => []
  | fuel + 1, searchPos =>
    match findOpenTag (html.drop searchPos) with
    | none => []
    | some (i, name, attrs, mlen) =>
      if hasClassTok attrs cls then
        match resolveEnd html ('<' :: name) (closeTagLit name) (html.length + 1) 1
            (searchPos + (i + mlen)) with
        | some contentEnd =>
          { openStart := searchPos + i, tagEnd := searchPos + (i + mlen),
            contentEnd := contentEnd, rawAttrs := attrs,
            elem := { tag_name := name, attributes := parseAttrs attrs,
                      content :=
                        trimChars ((html.take contentEnd).drop (searchPos + (i + mlen))) } } ::
            findElemsAux html cls fuel (contentEnd + (closeTagLit name).length)
        | none => findElemsAux html cls fuel (searchPos + (i + mlen))
      else findElemsAux html cls fuel (searchPos + (i + mlen))

/-- `find_elements_by_class` (lines 23-127). -/
def find_elements_by_class (html cls : List Char) : List Element :=
  if html.isEmpty || cls.isEmpty then []
  else (findElemsAux html cls (html.length + 1) 0).map Found.elem

/-- Anchored match of `find_first_anchor`'s `open_re = <a\s*([^>]*)>`:
returns the raw attribute text (group 1) and the match length. -/
def anchorOpenAt : List Char → Option (List Char × Nat)
  | '<' :: 'a' :: rest =>
    match (rest.dropWhile isWsChar).dropWhile (fun ch => ch ≠ '>') with
    | '>' :: r3 =>
      some ((rest.dropWhile isWsChar).takeWhile (fun ch => ch ≠ '>'),
        ('<' :: 'a' :: rest).length - r3.length)
    | _ => none
  | _ => none

/-- `open_re.captures(html)`: leftmost anchor-shaped opening tag. -/
def findAnchorOpen (l : List Char) : Option (Nat × List Char × Nat) :=
  scanFirst anchorOpenAt l

/-- Anchored match of `close_re = </a\s*>`. -/
def anchorCloseAt : List Char → Bool
  | '<' :: '/' :: 'a' :: rest =>
    match rest.dropWhile isWsChar with
    | '>' :: _ => true
    | _ => false
  | _ => false

/-- Probe form of `anchorCloseAt`. -/
def anchorCloseProbe (l : List Char) : Option Unit :=
  if anchorCloseAt l then some () else none

/-- `close_re.find(after_open)`: start index of the leftmost close match. -/
def findAnchorClose (l : List Char) : Option Nat :=
  (scanFirst anchorCloseProbe l).map (fun r => r.1)

/-- `find_first_anchor` (lines 129-165). -/
def find_first_anchor (html : List Char) : Option Element :=
  if html.isEmpty then none
  else
    match findAnchorOpen html with
    | none => none
    | some (st, attrs, mlen) =>
      match findAnchorClose (html.drop (st + mlen)) with
      | none => none
      | some c =>
        some { tag_name := ['a'], attributes := parseAttrs attrs,
               content := trimChars ((html.drop (st + mlen)).take c) }

/-! ### Characterizations of the scanning primitives -/

theorem litAt_length_le {pat l : List Char} (h : litAt pat l = true) :
    pat.length ≤ l.length := by
  induction pat generalizing l with
  | nil => simp
  | cons p ps ih =>
    cases l with
    | nil => simp [litAt] at h
    | cons c cs =>
      simp only [litAt, Bool.and_eq_true] at h
      simpa using ih h.2

theorem litAt_getElem {pat l : List Char} (h : litAt pat l = true) :
    ∀ k, k < pat.length → l[k]? = pat[k]? := by
  induction pat generalizing l with
  | nil => intro k hk; simp at hk
  | cons p ps ih =>
    cases l with
    | nil => simp [litAt] at h
    | cons c cs =>
      simp only [litAt, Bool.and_eq_true, decide_eq_true_eq] at h
      intro k hk
      cases k with
      | zero => simp [h.1]
      | succ k =>
        simp only [List.getElem?_cons_succ]
        exact ih h.2 k (by simpa using hk)

theorem scanFirst_eq_some {α : Type} (f : List Char → Option α) (l : List Char)
    (n : Nat) (a : α) :
    scanFirst f l = some (n, a) ↔
      f (l.drop n) = some a ∧ ∀ m, m < n → f (l.drop m) = none := by
  induction l generalizing n with
  | nil =>
    simp only [scanFirst, List.drop_nil]
    cases hf : f [] with
    | none =>
      simp only [Option.map_none]
      constructor
      · intro h; exact absurd h (by simp)
      · rintro ⟨h1, -⟩; exact absurd h1 (by simp [hf])
    | some b =>
      simp only [Option.map_some']
      constructor
      · intro h
        have hn : n = 0 ∧ b = a := by
          have := Option.some.inj h
          exact ⟨(Prod.mk.injEq _ _ _ _ ▸ this).1.symm ▸ rfl, (Prod.mk.injEq _ _ _ _ ▸ this).2⟩
        rcases hn with ⟨hn, hb⟩
        subst hn; subst hb
        exact ⟨rfl, by intro m hm; omega⟩
      · rintro ⟨h1, h2⟩
        cases n with
        | zero => rw [Option.some.inj h1]
        | succ m => exact absurd (h2 0 (by omega)) (by simp)
  | cons c cs ih =>
    simp only [scanFirst]
    cases hf : f (c :: cs) with
    | some b =>
      constructor
      · intro h
        have := Option.some.inj h
        have hn : n = 0 := ((Prod.mk.injEq _ _ _ _).mp this).1.symm
        have hb : b = a := ((Prod.mk.injEq _ _ _ _).mp this).2
        subst hn; subst hb
        exact ⟨by simpa using hf, by intro m hm; omega⟩
      · rintro ⟨h1, h2⟩
        cases n with
        | zero => simp only [List.drop_zero] at h1; rw [hf] at h1; rw [Option.some.inj h1]
        | succ m =>
          have := h2 0 (by omega)
          simp only [List.drop_zero] at this
          rw [hf] at this; exact absurd this (by simp)
    | none =>
      constructor
      · intro h
        rcases Option.map_eq_some'.mp h with ⟨⟨m, b⟩, hm, heq⟩
        have hn : m + 1 = n := ((Prod.mk.injEq _ _ _ _).mp heq).1
        have hb : b = a := ((Prod.mk.injEq _ _ _ _).mp heq).2
        subst hb
        rcases (ih m).mp hm with ⟨h1, h2⟩
        refine ⟨by rw [← hn]; simpa using h1, ?_⟩
        intro k hk
        cases k with
        | zero => simpa using hf
        | succ k =>
          have : k < m := by omega
          simpa using h2 k this
      · rintro ⟨h1, h2⟩
        cases n with
        | zero => simp only [List.drop_zero] at h1; rw [hf] at h1; exact absurd h1 (by simp)
        | succ m =>
          have hmem : scanFirst f cs = some (m, a) := by
            refine (ih m).mpr ⟨by simpa using h1, ?_⟩
            intro k hk
            have := h2 (k + 1) (by omega)
            simpa using this
          rw [hmem]; rfl

theorem scanFirst_eq_none {α : Type} (f : List Char → Option α) (l : List Char) :
    scanFirst f l = none ↔ ∀ n, f (l.drop n) = none := by
  induction l with
  | nil =>
    simp only [scanFirst, List.drop_nil]
    cases hf : f [] <;> simp [hf]
  | cons c cs ih =>
    simp only [scanFirst]
    cases hf : f (c :: cs) with
    | some b =>
      constructor
      · intro h; exact absurd h (by simp)
      · intro h; have := h 0; simp only [List.drop_zero] at this; rw [hf] at this
        exact absurd this (by simp)
    | none =>
      constructor
      · intro h
        have hcs : scanFirst f cs = none := by
          cases hs : scanFirst f cs with
          | none => rfl
          | some r => rw [hs] at h; exact absurd h (by simp)
        intro n
        cases n with
        | zero => simpa using hf
        | succ m => simpa using (ih.mp hcs) m
      · intro h
        have : scanFirst f cs = none := ih.mpr (fun n => by simpa using h (n + 1))
        rw [this]; rfl

theorem findLit_eq_some {pat l : List Char} {n : Nat} :
    findLit pat l = some n ↔
      litAt pat (l.drop n) = true ∧ ∀ m, m < n → litAt pat (l.drop m) = false := by
  have hch := scanFirst_eq_some (litProbe pat) l n ()
  unfold findLit
  constructor
  · intro h
    have hsf : scanFirst (litProbe pat) l = some (n, ()) := by
      cases hs : scanFirst (litProbe pat) l with
      | none => rw [hs] at h; exact absurd h (by simp)
      | some r =>
        rw [hs] at h
        cases r with
        | mk m u => cases u; simp_all
    rcases hch.mp hsf with ⟨h1, h2⟩
    unfold litProbe at h1 h2
    constructor
    · by_cases hl : litAt pat (l.drop n) = true
      · exact hl
      · rw [if_neg hl] at h1; exact absurd h1 (by simp)
    · intro k hk
      have := h2 k hk
      by_cases hl : litAt pat (l.drop k) = true
      · rw [if_pos hl] at this; exact absurd this (by simp)
      · simpa using hl
  · rintro ⟨h1, h2⟩
    have hsf : scanFirst (litProbe pat) l = some (n, ()) := by
      refine hch.mpr ⟨?_, ?_⟩
      · unfold litProbe; rw [if_pos h1]
      · intro m hm; unfold litProbe; rw [if_neg (by simp [h2 m hm])]
    rw [hsf]; rfl

theorem findLit_eq_none {pat l : List Char} :
    findLit pat l = none ↔ ∀ n, litAt pat (l.drop n) = false := by
  unfold findLit
  rw [Option.map_eq_none', scanFirst_eq_none]
  unfold litProbe
  constructor
  · intro h n
    have := h n
    by_cases hl : litAt pat (l.drop n) = true
    · rw [if_pos hl] at this; exact absurd this (by simp)
    · simpa using hl
  · intro h n; rw [if_neg (by simp [h n])]

theorem dropWhile_length_le (p : Char → Bool) (l : List Char) :
    (l.dropWhile p).length ≤ l.length :=
  (List.dropWhile_sublist p).length_le

theorem openTagAt_bounds {l n a : List Char} {m : Nat}
    (h : openTagAt l = some (n, a, m)) : 1 ≤ m ∧ m ≤ l.length := by
  unfold openTagAt at h
  split at h
  · rename_i c rest
    split at h
    · split at h
      · rename_i r4 heq
        have hr2 : ((rest.dropWhile isAlnumCh).dropWhile isWsChar).length ≤ rest.length := by
          have h1 := dropWhile_length_le isAlnumCh rest
          have h2 := dropWhile_length_le isWsChar (rest.dropWhile isAlnumCh)
          omega
        have hr4 : r4.length < rest.length + 1 := by
          have h3 := dropWhile_length_le (fun ch => ch ≠ '>')
            ((rest.dropWhile isAlnumCh).dropWhile isWsChar)
          have h4 : ('>' :: r4).length ≤ rest.length := by
            rw [← heq]
            omega
          simp at h4
          omega
        simp only [Option.some.injEq, Prod.mk.injEq] at h
        obtain ⟨-, -, hm⟩ := h
        simp only [List.length_cons] at hm ⊢
        omega
      · exact absurd h (by simp)
    · exact absurd h (by simp)
  · exact absurd h (by simp)

theorem anchorOpenAt_bounds {l a : List Char} {m : Nat}
    (h : anchorOpenAt l = some (a, m)) : 1 ≤ m ∧ m ≤ l.length := by
  unfold anchorOpenAt at h
  split at h
  · rename_i rest
    split at h
    · rename_i r3 heq
      have hr1 : (rest.dropWhile isWsChar).length ≤ rest.length :=
        dropWhile_length_le isWsChar rest
      have hr3 : r3.length < rest.length + 1 := by
        have h3 := dropWhile_length_le (fun ch => ch ≠ '>') (rest.dropWhile isWsChar)
        have h4 : ('>' :: r3).length ≤ rest.length := by
          rw [← heq]
          omega
        simp at h4
        omega
      simp only [Option.some.injEq, Prod.mk.injEq] at h
      obtain ⟨-, hm⟩ := h
      simp only [List.length_cons] at hm ⊢
      omega
    · exact absurd h (by simp)
  · exact absurd h (by simp)

theorem findOpenTag_bounds {l n a : List Char} {i m : Nat}
    (h : findOpenTag l = some (i, n, a, m)) :
    openTagAt (l.drop i) = some (n, a, m) ∧ 1 ≤ m ∧ i + m ≤ l.length := by
  have hc := (scanFirst_eq_some openTagAt l i (n, a, m)).mp h
  rcases hc with ⟨h1, -⟩
  rcases openTagAt_bounds h1 with ⟨hm1, hm2⟩
  have hd : (l.drop i).length = l.length - i := by simp
  have hi : i ≤ l.length := by
    by_contra hcon
    have : l.drop i = [] := List.drop_eq_nil_of_le (by omega)
    rw [this] at h1
    unfold openTagAt at h1
    exact absurd h1 (by simp)
  exact ⟨h1, hm1, by omega⟩

theorem findAnchorOpen_bounds {l a : List Char} {i m : Nat}
    (h : findAnchorOpen l = some (i, a, m)) :
    anchorOpenAt (l.drop i) = some (a, m) ∧ 1 ≤ m ∧ i + m ≤ l.length := by
  have hc := (scanFirst_eq_some anchorOpenAt l i (a, m)).mp h
  rcases hc with ⟨h1, -⟩
  rcases anchorOpenAt_bounds h1 with ⟨hm1, hm2⟩
  have hd : (l.drop i).length = l.length - i := by simp
  have hi : i ≤ l.length := by
    by_contra hcon
    have : l.drop i = [] := List.drop_eq_nil_of_le (by omega)
    rw [this] at h1
    unfold anchorOpenAt at h1
    exact absurd h1 (by simp)
  exact ⟨h1, hm1, by omega⟩

/-- When the balanced-close loop succeeds, the returned content end is at
or after the start position. -/
theorem resolveEnd_le {html openLit closeLit : List Char} :
    ∀ fuel (depth : Int) pos ce,
      resolveEnd html openLit closeLit fuel depth pos = some ce → pos ≤ ce := by
  intro fuel
  induction fuel with
  | zero => intro d pos ce h; simp [resolveEnd] at h
  | succ fuel ih =>
    intro d pos ce h
    unfold resolveEnd at h
    split at h
    · split at h
      · rename_i o c
        split at h
        · have := ih _ _ _ h; omega
        · split at h
          · have := Option.some.inj h; omega
          · have := ih _ _ _ h; omega
      · rename_i c
        split at h
        · have := Option.some.inj h; omega
        · have := ih _ _ _ h; omega
      · exact absurd h (by simp)
    · exact absurd h (by simp)

/-- When the balanced-close loop succeeds, the literal closing tag occurs
at the returned position. -/
theorem resolveEnd_closeLit {html openLit closeLit : List Char} :
    ∀ fuel (depth : Int) pos ce,
      resolveEnd html openLit closeLit fuel depth pos = some ce →
      litAt closeLit (html.drop ce) = true := by
  intro fuel
  induction fuel with
  | zero => intro d pos ce h; simp [resolveEnd] at h
  | succ fuel ih =>
    intro d pos ce h
    unfold resolveEnd at h
    split at h
    · split at h
      · rename_i o c hfo hfc
        split at h
        · exact ih _ _ _ h
        · split at h
          · have hce := Option.some.inj h
            rcases findLit_eq_some.mp hfc with ⟨h1, -⟩
            rw [List.drop_drop] at h1
            rw [← hce]
            exact h1
          · exact ih _ _ _ h
      · rename_i c hfo hfc
        split at h
        · have hce := Option.some.inj h
          rcases findLit_eq_some.mp hfc with ⟨h1, -⟩
          rw [List.drop_drop] at h1
          rw [← hce]
          exact h1
        · exact ih _ _ _ h
      · exact absurd h (by simp)
    · exact absurd h (by simp)

theorem scanFirst_le_length {α : Type} {f : List Char → Option α} {l : List Char}
    {n : Nat} {a : α} (h : scanFirst f l = some (n, a)) : n ≤ l.length := by
  rcases (scanFirst_eq_some f l n a).mp h with ⟨h1, h2⟩
  by_contra hcon
  have hm := h2 l.length (by omega)
  rw [List.drop_length] at hm
  rw [List.drop_eq_nil_of_le (by omega)] at h1
  rw [hm] at h1
  exact absurd h1 (by simp)

theorem findLit_le_length {pat l : List Char} {n : Nat}
    (h : findLit pat l = some n) : n ≤ l.length := by
  unfold findLit at h
  rcases Option.map_eq_some'.mp h with ⟨⟨m, u⟩, hm, heq⟩
  simp only at heq
  exact heq ▸ scanFirst_le_length hm

/-- When the balanced-close loop succeeds, the returned position lies
inside the document. -/
theorem resolveEnd_ce_le {html openLit closeLit : List Char} :
    ∀ fuel (depth : Int) pos ce,
      resolveEnd html openLit closeLit fuel depth pos = some ce →
      ce ≤ html.length := by
  intro fuel
  induction fuel with
  | zero => intro d pos ce h; simp [resolveEnd] at h
  | succ fuel ih =>
    intro d pos ce h
    unfold resolveEnd at h
    split at h
    · rename_i hp
      split at h
      · rename_i o c hfo hfc
        split at h
        · exact ih _ _ _ h
        · split at h
          · have hce := Option.some.inj h
            have hl := findLit_le_length hfc
            have : (html.drop pos).length = html.length - pos := by simp
            omega
          · exact ih _ _ _ h
      · rename_i c hfo hfc
        split at h
        · have hce := Option.some.inj h
          have hl := findLit_le_length hfc
          have : (html.drop pos).length = html.length - pos := by simp
          omega
        · exact ih _ _ _ h
      · exact absurd h (by simp)
    · exact absurd h (by simp)

/-- When the balanced-close loop succeeds, the closing tag fits inside
the document. -/
theorem resolveEnd_close_bound {html openLit closeLit : List Char}
    {fuel : Nat} {depth : Int} {pos ce : Nat}
    (h : resolveEnd html openLit closeLit fuel depth pos = some ce) :
    ce + closeLit.length ≤ html.length := by
  have h1 := resolveEnd_closeLit fuel depth pos ce h
  have h2 := litAt_length_le h1
  have hce := resolveEnd_ce_le fuel depth pos ce h
  have h3 : (html.drop ce).length = html.length - ce := by simp
  omega

/-- Per-record invariant of the scan loop: every returned record starts at
or after the scan position, its opening tag is a real `open_tag_re` match
at `openStart` ending at `tagEnd`, its content is the trimmed substring
between `tagEnd` and `contentEnd`, and the literal closing tag occurs at
`contentEnd`. -/
theorem findElemsAux_inv (html cls : List Char) :
    ∀ fuel p r, r ∈ findElemsAux html cls fuel p →
      p ≤ r.openStart ∧ r.openStart < r.tagEnd ∧ r.tagEnd ≤ r.contentEnd ∧
      openTagAt (html.drop r.openStart)
        = some (r.elem.tag_name, r.rawAttrs, r.tagEnd - r.openStart) ∧
      r.elem.attributes = parseAttrs r.rawAttrs ∧
      r.elem.content = trimChars ((html.take r.contentEnd).drop r.tagEnd) ∧
      litAt (closeTagLit r.elem.tag_name) (html.drop r.contentEnd) = true := by
  intro fuel
  induction fuel with
  | zero => intro p r hr; simp [findElemsAux] at hr
  | succ fuel ih =>
    intro p r hr
    unfold findElemsAux at hr
    cases hfo : findOpenTag (html.drop p) with
    | none => rw [hfo] at hr; simp at hr
    | some q =>
      obtain ⟨i, name, attrs, mlen⟩ := q
      rw [hfo] at hr
      dsimp only at hr
      rcases findOpenTag_bounds hfo with ⟨hat, hm1, hbound⟩
      by_cases hcl : hasClassTok attrs cls = true
      · rw [if_pos hcl] at hr
        cases hre : resolveEnd html ('<' :: name) (closeTagLit name) (html.length + 1) 1
            (p + (i + mlen)) with
        | some ce =>
          rw [hre] at hr
          have hle := resolveEnd_le _ _ _ _ hre
          rcases List.mem_cons.mp hr with heq | htail
          · subst heq
            refine ⟨Nat.le_add_right p i, by simp; omega, by simp; omega, ?_, rfl, rfl, ?_⟩
            · rw [List.drop_drop] at hat
              have harith : p + (i + mlen) - (p + i) = mlen := by omega
              simpa [harith] using hat
            · exact resolveEnd_closeLit _ _ _ _ hre
          · have hrec := ih (ce + (closeTagLit name).length) r htail
            refine ⟨?_, hrec.2.1, hrec.2.2.1, hrec.2.2.2.1, hrec.2.2.2.2.1,
              hrec.2.2.2.2.2.1, hrec.2.2.2.2.2.2⟩
            have := hrec.1
            omega
        | none =>
          rw [hre] at hr
          have hrec := ih (p + (i + mlen)) r hr
          refine ⟨?_, hrec.2.1, hrec.2.2.1, hrec.2.2.2.1, hrec.2.2.2.2.1,
            hrec.2.2.2.2.2.1, hrec.2.2.2.2.2.2⟩
          have := hrec.1
          omega
      · rw [if_neg hcl] at hr
        have hrec := ih (p + (i + mlen)) r hr
        refine ⟨?_, hrec.2.1, hrec.2.2.1, hrec.2.2.2.1, hrec.2.2.2.2.1,
          hrec.2.2.2.2.2.1, hrec.2.2.2.2.2.2⟩
        have := hrec.1
        omega

/-- The records of the scan loop are strictly ordered: each later record's
opening tag starts strictly after the previous record's opening tag and
strictly after the previous record's content end. -/
theorem findElemsAux_pairwise (html cls : List Char) :
    ∀ fuel p,
      List.Pairwise (fun a b => a.openStart < b.openStart ∧ a.contentEnd < b.openStart)
        (findElemsAux html cls fuel p) := by
  intro fuel
  induction fuel with
  | zero => intro p; simp [findElemsAux]
  | succ fuel ih =>
    intro p
    unfold findElemsAux
    cases hfo : findOpenTag (html.drop p) with
    | none => simp
    | some q =>
      obtain ⟨i, name, attrs, mlen⟩ := q
      dsimp only
      rcases findOpenTag_bounds hfo with ⟨hat, hm1, hbound⟩
      by_cases hcl : hasClassTok attrs cls = true
      · rw [if_pos hcl]
        cases hre : resolveEnd html ('<' :: name) (closeTagLit name) (html.length + 1) 1
            (p + (i + mlen)) with
        | some ce =>
          have hle := resolveEnd_le _ _ _ _ hre
          refine List.pairwise_cons.mpr ⟨?_, ih _⟩
          intro b hb
          have hinv := (findElemsAux_inv html cls fuel (ce + (closeTagLit name).length) b hb).1
          have hcpos : 0 < (closeTagLit name).length := by simp [closeTagLit]
          constructor
          · simp only
            omega
          · simp only
            omega
        | none => exact ih _
      · rw [if_neg hcl]; exact ih _

/-- Modelled from the spec's wording of the balanced-close resolution
(§4.3 / claim C1): identical to the source's loop except that an
opening-prefix occurrence advances the scan position past the whole
occurrence (`pos + o + openLit.length`) where the source advances one
character past the occurrence's start (`pos + o + 1`). -/
def resolveEndSpec (html openLit closeLit : List Char) (fuel : Nat) (depth : Int)
    (pos : Nat) : Option Nat :=
  match fuel with
  | 0 => none
  | fuel + 1 =>
    if pos < html.length then
      match findLit openLit (html.drop pos), findLit closeLit (html.drop pos) with
      | some o, some c =>
        if o < c then
          resolveEndSpec html openLit closeLit fuel (depth + 1) (pos + o + openLit.length)
        else if depth - 1 = 0 then some (pos + c)
        else resolveEndSpec html openLit closeLit fuel (depth - 1) (pos + c + closeLit.length)
      | none, some c =>
        if depth - 1 = 0 then some (pos + c)
        else resolveEndSpec html openLit closeLit fuel (depth - 1) (pos + c + closeLit.length)
      | _, _ => none
    else none

theorem resolveEnd_step (html openLit closeLit : List Char) (fuel : Nat)
    (depth : Int) (pos : Nat) :
    resolveEnd html openLit closeLit (fuel + 1) depth pos =
      if pos < html.length then
        match findLit openLit (html.drop pos), findLit closeLit (html.drop pos) with
        | some o, some c =>
          if o < c then resolveEnd html openLit closeLit fuel (depth + 1) (pos + o + 1)
          else if depth - 1 = 0 then some (pos + c)
          else resolveEnd html openLit closeLit fuel (depth - 1) (pos + c + closeLit.length)
        | none, some c =>
          if depth - 1 = 0 then some (pos + c)
          else resolveEnd html openLit closeLit fuel (depth - 1) (pos + c + closeLit.length)
        | _, _ => none
      else none := rfl

theorem resolveEndSpec_step (html openLit closeLit : List Char) (fuel : Nat)
    (depth : Int) (pos : Nat) :
    resolveEndSpec html openLit closeLit (fuel + 1) depth pos =
      if pos < html.length then
        match findLit openLit (html.drop pos), findLit closeLit (html.drop pos) with
        | some o, some c =>
          if o < c then
            resolveEndSpec html openLit closeLit fuel (depth + 1) (pos + o + openLit.length)
          else if depth - 1 = 0 then some (pos + c)
          else resolveEndSpec html openLit closeLit fuel (depth - 1) (pos + c + closeLit.length)
        | none, some c =>
          if depth - 1 = 0 then some (pos + c)
          else resolveEndSpec html openLit closeLit fuel (depth - 1) (pos + c + closeLit.length)
        | _, _ => none
      else none := rfl

theorem map_add_eq_some {o : Option Nat} {p n : Nat}
    (h : o.map (fun x => p + x) = some n) : ∃ x, o = some x ∧ p + x = n := by
  cases o with
  | none => exact absurd h (by simp)
  | some x =>
    refine ⟨x, rfl, ?_⟩
    simpa using h

theorem findLit_nil_cons (x : Char) (xs : List Char) : findLit (x :: xs) [] = none := by
  simp [findLit, scanFirst, litProbe, litAt]

/-- Characters strictly inside an occurrence of `'<' :: name` are name
characters, hence not `'<'`; so no pattern starting with `'<'` can begin
strictly inside that occurrence. -/
theorem no_occurrence_inside (html name pat0 : List Char) (a j : Nat)
    (hname : ∀ ch ∈ name, ch ≠ '<')
    (hocc : litAt ('<' :: name) (html.drop a) = true)
    (hj1 : a < j) (hj2 : j < a + ('<' :: name).length) :
    litAt ('<' :: pat0) (html.drop j) = false := by
  by_contra hcon
  rw [Bool.not_eq_false] at hcon
  have h0 := litAt_getElem hcon 0 (by simp)
  rw [List.getElem?_drop] at h0
  have h1 := litAt_getElem hocc (j - a) (by simp only [List.length_cons] at hj2 ⊢; omega)
  rw [List.getElem?_drop] at h1
  have harith : a + (j - a) = j := by omega
  rw [harith] at h1
  simp only [Nat.add_zero] at h0
  rw [List.getElem?_cons_zero] at h0
  obtain ⟨k, hk⟩ : ∃ k, j - a = k + 1 := ⟨j - a - 1, by omega⟩
  rw [hk, List.getElem?_cons_succ] at h1
  rw [h0] at h1
  have hklen : k < name.length := by simp only [List.length_cons] at hj2; omega
  rw [List.getElem?_eq_getElem hklen] at h1
  exact hname name[k] (List.getElem_mem hklen) (Option.some.inj h1).symm

/-- If no occurrence of `pat` starts in `[p, q)`, the leftmost occurrence
from `p` and the leftmost occurrence from `q` are the same absolute
position. -/
theorem findLit_shift (html pat : List Char) (p q : Nat) (hpq : p ≤ q)
    (hno : ∀ j, p ≤ j → j < q → litAt pat (html.drop j) = false) :
    (findLit pat (html.drop p)).map (fun o => p + o)
      = (findLit pat (html.drop q)).map (fun o => q + o) := by
  cases hq : findLit pat (html.drop q) with
  | some c =>
    rcases findLit_eq_some.mp hq with ⟨h1, h2⟩
    rw [List.drop_drop] at h1
    have hsome : findLit pat (html.drop p) = some (q + c - p) := by
      apply findLit_eq_some.mpr
      constructor
      · rw [List.drop_drop]
        have harith : p + (q + c - p) = q + c := by omega
        rw [harith]
        exact h1
      · intro m hm
        rw [List.drop_drop]
        by_cases hcase : p + m < q
        · exact hno (p + m) (by omega) hcase
        · have hq2 := h2 (p + m - q) (by omega)
          rw [List.drop_drop] at hq2
          have harith : q + (p + m - q) = p + m := by omega
          rwa [harith] at hq2
    rw [hsome]
    simp only [Option.map_some']
    exact congrArg some (by omega)
  | none =>
    have hnone : findLit pat (html.drop p) = none := by
      apply findLit_eq_none.mpr
      intro m
      rw [List.drop_drop]
      by_cases hcase : p + m < q
      · exact hno (p + m) (by omega) hcase
      · have hq2 := findLit_eq_none.mp hq (p + m - q)
        rw [List.drop_drop] at hq2
        have harith : q + (p + m - q) = p + m := by omega
        rwa [harith] at hq2
    rw [hnone]
    rfl

/-- The source's balanced-close loop and the spec-worded variant agree:
stepping one character past a found open-prefix occurrence is equivalent
to stepping past the whole occurrence, because the characters strictly
inside the occurrence are tag-name characters and neither probe pattern
can start there. -/
theorem resolveEnd_spec_eq (html name : List Char) (hname : ∀ ch ∈ name, ch ≠ '<') :
    ∀ fuel (depth : Int) (p q : Nat), p ≤ q →
      (∀ j, p ≤ j → j < q →
        litAt ('<' :: name) (html.drop j) = false ∧
        litAt (closeTagLit name) (html.drop j) = false) →
      resolveEnd html ('<' :: name) (closeTagLit name) fuel depth p
        = resolveEndSpec html ('<' :: name) (closeTagLit name) fuel depth q := by
  intro fuel
  induction fuel with
  | zero => intro d p q hpq hno; rfl
  | succ fuel ih =>
    intro d p q hpq hno
    have hso := findLit_shift html ('<' :: name) p q hpq (fun j h1 h2 => (hno j h1 h2).1)
    have hsc := findLit_shift html (closeTagLit name) p q hpq (fun j h1 h2 => (hno j h1 h2).2)
    by_cases hq : q < html.length
    · have hp : p < html.length := by omega
      rw [resolveEnd_step, resolveEndSpec_step, if_pos hp, if_pos hq]
      cases hqo : findLit ('<' :: name) (html.drop q) with
      | some oq =>
        rw [hqo] at hso
        simp only [Option.map_some'] at hso
        rcases map_add_eq_some hso with ⟨op, hpo, hsum_o⟩
        cases hqc : findLit (closeTagLit name) (html.drop q) with
        | some cq =>
          rw [hqc] at hsc
          simp only [Option.map_some'] at hsc
          rcases map_add_eq_some hsc with ⟨cp, hpc, hsum_c⟩
          rw [hpo, hpc]
          dsimp only
          have hocc : litAt ('<' :: name) (html.drop (q + oq)) = true := by
            have h1 := (findLit_eq_some.mp hqo).1
            rwa [List.drop_drop] at h1
          by_cases hlt : oq < cq
          · rw [if_pos (show op < cp by omega), if_pos hlt]
            apply ih
            · simp only [List.length_cons]
              omega
            · intro j hj1 hj2
              constructor
              · exact no_occurrence_inside html name name (q + oq) j hname hocc
                  (by omega) (by simp only [List.length_cons] at hj2 ⊢; omega)
              · exact no_occurrence_inside html name ('/' :: (name ++ ['>'])) (q + oq) j
                  hname hocc (by omega) (by simp only [List.length_cons] at hj2 ⊢; omega)
          · rw [if_neg (show ¬ op < cp by omega), if_neg hlt]
            by_cases hd : d - 1 = 0
            · rw [if_pos hd, if_pos hd]
              exact congrArg some (by omega)
            · rw [if_neg hd, if_neg hd]
              apply ih
              · omega
              · intro j hj1 hj2
                exact absurd hj2 (by omega)
        | none =>
          rw [hqc] at hsc
          simp only [Option.map_none'] at hsc
          have hpc : findLit (closeTagLit name) (html.drop p) = none :=
            Option.map_eq_none'.mp hsc
          rw [hpo, hpc]
      | none =>
        rw [hqo] at hso
        simp only [Option.map_none'] at hso
        have hpo : findLit ('<' :: name) (html.drop p) = none :=
          Option.map_eq_none'.mp hso
        cases hqc : findLit (closeTagLit name) (html.drop q) with
        | some cq =>
          rw [hqc] at hsc
          simp only [Option.map_some'] at hsc
          rcases map_add_eq_some hsc with ⟨cp, hpc, hsum_c⟩
          rw [hpo, hpc]
          dsimp only
          by_cases hd : d - 1 = 0
          · rw [if_pos hd, if_pos hd]
            exact congrArg some (by omega)
          · rw [if_neg hd, if_neg hd]
            apply ih
            · omega
            · intro j hj1 hj2
              exact absurd hj2 (by omega)
        | none =>
          rw [hqc] at hsc
          simp only [Option.map_none'] at hsc
          have hpc : findLit (closeTagLit name) (html.drop p) = none :=
            Option.map_eq_none'.mp hsc
          rw [hpo, hpc]
    · have hdq : html.drop q = [] := List.drop_eq_nil_of_le (by omega)
      have hqo : findLit ('<' :: name) (html.drop q) = none := by
        rw [hdq]; exact findLit_nil_cons _ _
      have hqc : findLit (closeTagLit name) (html.drop q) = none := by
        rw [hdq]; exact findLit_nil_cons _ _
      by_cases hp : p < html.length
      · rw [resolveEnd_step, resolveEndSpec_step, if_pos hp, if_neg hq]
        have hpo : findLit ('<' :: name) (html.drop p) = none := by
          rw [hqo] at hso
          simp only [Option.map_none'] at hso
          exact Option.map_eq_none'.mp hso
        have hpc : findLit (closeTagLit name) (html.drop p) = none := by
          rw [hqc] at hsc
          simp only [Option.map_none'] at hsc
          exact Option.map_eq_none'.mp hsc
        rw [hpo, hpc]
      · rw [resolveEnd_step, resolveEndSpec_step, if_neg hp, if_neg hq]

theorem findAnchorClose_eq_some {l : List Char} {n : Nat} :
    findAnchorClose l = some n ↔
      anchorCloseAt (l.drop n) = true ∧ ∀ m, m < n → anchorCloseAt (l.drop m) = false := by
  have hch := scanFirst_eq_some anchorCloseProbe l n ()
  unfold findAnchorClose
  constructor
  · intro h
    have hsf : scanFirst anchorCloseProbe l = some (n, ()) := by
      cases hs : scanFirst anchorCloseProbe l with
      | none => rw [hs] at h; exact absurd h (by simp)
      | some r =>
        rw [hs] at h
        cases r with
        | mk m u => cases u; simp_all
    rcases hch.mp hsf with ⟨h1, h2⟩
    unfold anchorCloseProbe at h1 h2
    constructor
    · by_cases hl : anchorCloseAt (l.drop n) = true
      · exact hl
      · rw [if_neg hl] at h1; exact absurd h1 (by simp)
    · intro k hk
      have hkk := h2 k hk
      by_cases hl : anchorCloseAt (l.drop k) = true
      · rw [if_pos hl] at hkk; exact absurd hkk (by simp)
      · simpa using hl
  · rintro ⟨h1, h2⟩
    have hsf : scanFirst anchorCloseProbe l = some (n, ()) := by
      refine hch.mpr ⟨?_, ?_⟩
      · unfold anchorCloseProbe; rw [if_pos h1]
      · intro m hm; unfold anchorCloseProbe; rw [if_neg (by simp [h2 m hm])]
    rw [hsf]; rfl

theorem findAnchorClose_eq_none {l : List Char} :
    findAnchorClose l = none ↔ ∀ m, anchorCloseAt (l.drop m) = false := by
  unfold findAnchorClose
  rw [Option.map_eq_none', scanFirst_eq_none]
  unfold anchorCloseProbe
  constructor
  · intro h m
    have hm := h m
    by_cases hl : anchorCloseAt (l.drop m) = true
    · rw [if_pos hl] at hm; exact absurd hm (by simp)
    · simpa using hl
  · intro h m; rw [if_neg (by simp [h m])]

theorem findAnchorClose_le_length {l : List Char} {n : Nat}
    (h : findAnchorClose l = some n) : n ≤ l.length := by
  unfold findAnchorClose at h
  rcases Option.map_eq_some'.mp h with ⟨⟨m, u⟩, hm, heq⟩
  simp only at heq
  exact heq ▸ scanFirst_le_length hm

/-- First-key-wins characterization of the association-list lookup. -/
theorem find?_key_eq_some_iff (l : List (List Char × List Char)) (n v : List Char) :
    (l.find? (fun p => p.1 == n)).map (fun p => p.2) = some v ↔
      ∃ i : Nat, (∃ p : List Char × List Char, l[i]? = some p ∧ p.1 = n ∧ p.2 = v)
        ∧ ∀ j, j < i → ∀ p : List Char × List Char, l[j]? = some p → p.1 ≠ n := by
  induction l with
  | nil => simp
  | cons a as ih =>
    by_cases ha : a.1 = n
    · rw [List.find?_cons_of_pos _ (by simp [ha])]
      simp only [Option.map_some']
      constructor
      · intro h
        exact ⟨0, ⟨a, by simp, ha, Option.some.inj h⟩, fun j hj => absurd hj (Nat.not_lt_zero j)⟩
      · rintro ⟨i, ⟨p, hip, hp1, hp2⟩, hfirst⟩
        cases i with
        | zero =>
          have hpa : a = p := by simpa using hip
          rw [← hp2, ← hpa]
        | succ k =>
          exact absurd ha (hfirst 0 (by omega) a (by simp))
    · rw [List.find?_cons_of_neg _ (by simp [ha])]
      rw [ih]
      constructor
      · rintro ⟨i, hi, hfirst⟩
        refine ⟨i + 1, by simpa using hi, ?_⟩
        intro j hj p hp
        cases j with
        | zero =>
          have hpa : a = p := by simpa using hp
          rw [← hpa]; exact ha
        | succ k =>
          exact hfirst k (by omega) p (by simpa using hp)
      · rintro ⟨i, hi, hfirst⟩
        cases i with
        | zero =>
          rcases hi with ⟨p, hp, hp1, hp2⟩
          have hpa : a = p := by simpa using hp
          rw [← hpa] at hp1
          exact absurd hp1 ha
        | succ k =>
          refine ⟨k, by simpa using hi, ?_⟩
          intro j hj p hp
          exact hfirst (j + 1) (by omega) p (by simpa using hp)

/-- Absent-key characterization of the association-list lookup. -/
theorem find?_key_eq_none_iff (l : List (List Char × List Char)) (n : List Char) :
    (l.find? (fun p => p.1 == n)).map (fun p => p.2) = none ↔ ∀ p ∈ l, p.1 ≠ n := by
  rw [Option.map_eq_none', List.find?_eq_none]
  constructor
  · intro h p hp
    have hph := h p hp
    simpa using hph
  · intro h p hp
    simpa using h p hp

/-! ### Concrete documents used in the claim theorems -/

/-- One double-quote character, as a string piece. -/
def qD : List Char := [quoteD]

/-- One single-quote character, as a string piece. -/
def qS : List Char := [quoteS]

/-- A `div` element whose content contains a `<divider>` tag sharing the
`<div` prefix, so the depth probe counts it as a nested opening. -/
def divDoc : List Char :=
  "<div class=".toList ++ qD ++ "x".toList ++ qD ++ "><divider>a</div> b</div>".toList

/-- A document whose first class-matching candidate is unbalanced and
whose second candidate is balanced. -/
def unbalDoc : List Char :=
  "<div class=".toList ++ qD ++ "x".toList ++ qD ++ "><i><div class=".toList
    ++ qD ++ "x".toList ++ qD ++ ">a</div>".toList

/-- The raw attribute text of `unbalDoc`'s opening tags. -/
def unbalAttrs : List Char := "class=".toList ++ qD ++ "x".toList ++ qD

/-- The multi-class document of the repository's `test_multi_class`. -/
def capsDoc : List Char :=
  "<div class=".toList ++ qD ++ "foo bar caps baz".toList ++ qD
    ++ " data-rating=".toList ++ qD ++ "4.2".toList ++ qD ++ ">Rating</div>".toList

/-! ### Claims -/

/-- C1: in `find_elements_by_class`, once a matching opening tag is found,
balanced-content resolution repeatedly finds the next occurrence of the
literal opening prefix `<` + tag name and of the literal closing tag
`</` + tag name + `>`; the earlier one wins a step, an opening occurrence
increments the depth counter (initialised to 1) and advances the position
past that occurrence, a closing occurrence decrements it, and the content
ends at the start of the closing tag that brings the counter to zero.
The first conjunct proves the source loop (which advances one character
past a found opening occurrence) equal to the spec-worded variant
`resolveEndSpec` (which advances past the whole occurrence); the second
conjunct exhibits the literal-prefix behaviour: `<divider>` inside a
`div` element's content counts as a nested `<div` opening, so the content
extends to the second `</div>`. -/
theorem claim_C1 :
    (∀ (html name : List Char) (fuel : Nat) (depth : Int) (pos : Nat),
        (∀ ch ∈ name, ch ≠ '<') →
        resolveEndSpec html ('<' :: name) (closeTagLit name) fuel depth pos
          = resolveEnd html ('<' :: name) (closeTagLit name) fuel depth pos)
    ∧ find_elements_by_class divDoc ("x".toList)
        = [{ tag_name := "div".toList,
             attributes := [("class".toList, "x".toList)],
             content := "<divider>a</div> b".toList }] := by
  constructor
  · intro html name fuel d pos hname
    exact (resolveEnd_spec_eq html name hname fuel d pos pos le_rfl
      (fun j h1 h2 => absurd h2 (by omega))).symm
  · decide

/-- Witness for C1: the equivalence applied at a concrete document. -/
theorem claim_C1_witness :
    resolveEndSpec ("<p>x</p>".toList) ('<' :: "p".toList) (closeTagLit ("p".toList)) 9 1 3
      = resolveEnd ("<p>x</p>".toList) ('<' :: "p".toList) (closeTagLit ("p".toList)) 9 1 3 :=
  claim_C1.1 ("<p>x</p>".toList) ("p".toList) 9 1 3 (by decide)

/-- C2: `find_elements_by_class` maps the annotated scan, and the
annotated scan is strictly ordered: each later match's opening tag starts
strictly after the previous match's opening tag and strictly after the
previous match's content end, so elements come in left-to-right order of
their opening tags, no document element is returned twice, and no
returned element's opening tag lies inside a previously matched
element's content. -/
theorem claim_C2 (html cls : List Char) :
    find_elements_by_class html cls
      = (if html.isEmpty || cls.isEmpty then []
         else (findElemsAux html cls (html.length + 1) 0).map Found.elem)
    ∧ List.Pairwise (fun a b => a.openStart < b.openStart ∧ a.contentEnd < b.openStart)
        (findElemsAux html cls (html.length + 1) 0) :=
  ⟨rfl, findElemsAux_pairwise html cls (html.length + 1) 0⟩

/-- C3: the class test of `find_elements_by_class` holds exactly when the
captured class value, split on whitespace, contains the class name as a
whole token (membership, not substring); empty document or empty class
name yields the empty result; and on the repository's multi-class
document, `caps` matches once while the substring `ca` matches nothing. -/
theorem claim_C3 :
    (∀ cls, find_elements_by_class [] cls = [])
    ∧ (∀ html, find_elements_by_class html [] = [])
    ∧ (∀ attrs cls, hasClassTok attrs cls = true
        ↔ ∃ v, classValue attrs = some v ∧ cls ∈ splitWs v)
    ∧ (find_elements_by_class capsDoc ("caps".toList)).length = 1
    ∧ find_elements_by_class capsDoc ("ca".toList) = [] := by
  refine ⟨?_, ?_, ?_, by decide, by decide⟩
  · intro cls; rfl
  · intro html; simp [find_elements_by_class]
  · intro attrs cls
    unfold hasClassTok
    cases hv : classValue attrs with
    | none => simp
    | some v => simp [List.any_eq_true]

/-- C4: a class-matching candidate whose balanced-close resolution fails
produces no element and no error: the scan result equals the scan
restarted just past the candidate's opening tag, so later candidates are
still considered; the concrete conjunct shows an unbalanced first
candidate being skipped while a later balanced candidate is returned. -/
theorem claim_C4 :
    (∀ (html cls : List Char) (fuel p i mlen : Nat) (name attrs : List Char),
        findOpenTag (html.drop p) = some (i, name, attrs, mlen) →
        hasClassTok attrs cls = true →
        resolveEnd html ('<' :: name) (closeTagLit name) (html.length + 1) 1
            (p + (i + mlen)) = none →
        findElemsAux html cls (fuel + 1) p = findElemsAux html cls fuel (p + (i + mlen)))
    ∧ find_elements_by_class unbalDoc ("x".toList)
        = [{ tag_name := "div".toList, attributes := [("class".toList, "x".toList)],
             content := "a".toList }] := by
  constructor
  · intro html cls fuel p i mlen name attrs hfo hcl hre
    conv_lhs => rw [findElemsAux]
    rw [hfo]
    dsimp only
    rw [if_pos hcl, hre]
  · decide

/-- Witness for C4: the skip equation applied on the concrete unbalanced
document. -/
theorem claim_C4_witness :
    findElemsAux unbalDoc ("x".toList) (unbalDoc.length + 1) 0
      = findElemsAux unbalDoc ("x".toList) unbalDoc.length (0 + (0 + 15)) :=
  claim_C4.1 unbalDoc ("x".toList) unbalDoc.length 0 0 15 ("div".toList) unbalAttrs
    (by decide) (by decide) (by decide)

/-- C5's counterexample document: a close-pattern match `</a >` (with
whitespace) precedes the first literal `</a>`. -/
def cxDoc : List Char := "<a>x</a >y</a>".toList

/-- C5 as stated is false: on `cxDoc` the returned content is `x`, cut at
the `</a >` match, while the first literal `</a>` after the opening tag
sits at index 7, so the claim would predict content `x</a >y`; moreover
on `<a>x</a >` the function returns an anchor although no literal `</a>`
exists at all. -/
theorem claim_C5_cx :
    (find_first_anchor cxDoc).map Element.content = some ("x".toList)
    ∧ findLit ("</a>".toList) (cxDoc.drop 3) = some 7
    ∧ trimChars ((cxDoc.drop 3).take 7) = "x</a >y".toList
    ∧ ("x".toList : List Char) ≠ "x</a >y".toList
    ∧ (find_first_anchor ("<a>x</a >".toList)).isSome = true
    ∧ findLit ("</a>".toList) ("<a>x</a >".toList) = none := by
  refine ⟨by decide, by decide, by decide, by decide, by decide, by decide⟩

/-- C5 amended: `find_first_anchor` locates the first opening tag
matching `<a` + optional whitespace + attributes + `>`, then takes as
content the text up to the first match of `</a` + optional whitespace +
`>` after that tag (not depth-balanced); it returns no result when the
fragment is empty, or when no such opening tag or no such closing match
exists. -/
theorem claim_C5 (html : List Char) :
    (html = [] → find_first_anchor html = none)
    ∧ ((find_first_anchor html).isSome = true ↔
        ∃ st attrs mlen, findAnchorOpen html = some (st, attrs, mlen)
          ∧ ∃ c, anchorCloseAt ((html.drop (st + mlen)).drop c) = true)
    ∧ (∀ (st mlen c : Nat) (attrs : List Char),
        findAnchorOpen html = some (st, attrs, mlen) →
        anchorCloseAt ((html.drop (st + mlen)).drop c) = true →
        (∀ m, m < c → anchorCloseAt ((html.drop (st + mlen)).drop m) = false) →
        find_first_anchor html
          = some { tag_name := "a".toList, attributes := parseAttrs attrs,
                   content := trimChars ((html.drop (st + mlen)).take c) }) := by
  refine ⟨?_, ?_, ?_⟩
  · intro h; subst h; rfl
  · unfold find_first_anchor
    by_cases hemp : html.isEmpty
    · rw [if_pos hemp]
      have hnil : html = [] := by simpa using hemp
      subst hnil
      simp [findAnchorOpen, scanFirst, anchorOpenAt]
    · rw [if_neg hemp]
      cases ho : findAnchorOpen html with
      | none => simp
      | some t =>
        obtain ⟨st, attrs, mlen⟩ := t
        dsimp only
        cases hc : findAnchorClose (html.drop (st + mlen)) with
        | none =>
          constructor
          · intro h; exact absurd h (by simp)
          · rintro ⟨st2, attrs2, mlen2, hopen2, c, hclose⟩
            have h1 : st = st2 ∧ attrs = attrs2 ∧ mlen = mlen2 := by
              have := Option.some.inj hopen2
              simpa [Prod.ext_iff] using this
            rcases h1 with ⟨rfl, rfl, rfl⟩
            have hfc := findAnchorClose_eq_none.mp hc c
            rw [hclose] at hfc
            exact absurd hfc (by simp)
        | some c =>
          constructor
          · intro _
            exact ⟨st, attrs, mlen, rfl, c, (findAnchorClose_eq_some.mp hc).1⟩
          · intro _; rfl
  · intro st mlen c attrs hopen hclose hfirst
    have hc : findAnchorClose (html.drop (st + mlen)) = some c :=
      findAnchorClose_eq_some.mpr ⟨hclose, hfirst⟩
    have hemp : html.isEmpty = false := by
      cases html with
      | nil => exact absurd hopen (by simp [findAnchorOpen, scanFirst, anchorOpenAt])
      | cons x xs => rfl
    unfold find_first_anchor
    rw [if_neg (by simp [hemp]), hopen]
    dsimp only
    rw [hc]
    rfl

/-- Witness for C5's amended theorem, on the counterexample document. -/
theorem claim_C5_witness :
    find_first_anchor cxDoc
      = some { tag_name := "a".toList, attributes := parseAttrs [],
               content := trimChars ((cxDoc.drop (0 + 3)).take 1) } :=
  (claim_C5 cxDoc).2.2 0 3 1 [] (by decide) (by decide)
    (fun m hm => by
      have hm0 : m = 0 := by omega
      subst hm0
      decide)

/-- Single-element document for the C6 witness. -/
def pDoc : List Char := "<p class=".toList ++ qD ++ "k".toList ++ qD ++ ">hi</p>".toList

/-- The element extracted from `pDoc`. -/
def pElem : Element :=
  { tag_name := "p".toList, attributes := [("class".toList, "k".toList)],
    content := "hi".toList }

/-- C6: every element returned by `find_elements_by_class` arises from a
scan record whose content is the trimmed exact substring of the document
between the opening tag's end (`tagEnd`) and the matching closing tag's
start (`contentEnd`); the opening tag is a real opening-tag match
occupying `[openStart, tagEnd)` and the literal closing tag occurs at
`contentEnd`, so the content includes neither tag. -/
theorem claim_C6 (html cls : List Char) (e : Element)
    (he : e ∈ find_elements_by_class html cls) :
    ∃ r, r ∈ findElemsAux html cls (html.length + 1) 0 ∧ r.elem = e
      ∧ e.content = trimChars ((html.take r.contentEnd).drop r.tagEnd)
      ∧ openTagAt (html.drop r.openStart)
          = some (e.tag_name, r.rawAttrs, r.tagEnd - r.openStart)
      ∧ r.openStart < r.tagEnd ∧ r.tagEnd ≤ r.contentEnd
      ∧ litAt (closeTagLit e.tag_name) (html.drop r.contentEnd) = true := by
  unfold find_elements_by_class at he
  by_cases hcond : html.isEmpty || cls.isEmpty
  · rw [if_pos hcond] at he
    exact absurd he (by simp)
  · rw [if_neg hcond] at he
    rcases List.mem_map.mp he with ⟨r, hr, hre⟩
    have hinv := findElemsAux_inv html cls (html.length + 1) 0 r hr
    refine ⟨r, hr, hre, ?_, ?_, hinv.2.1, hinv.2.2.1, ?_⟩
    · rw [← hre]; exact hinv.2.2.2.2.2.1
    · rw [← hre]; exact hinv.2.2.2.1
    · rw [← hre]; exact hinv.2.2.2.2.2.2

/-- Witness for C6 on a concrete one-element document. -/
theorem claim_C6_witness :
    ∃ r, r ∈ findElemsAux pDoc ("k".toList) (pDoc.length + 1) 0 ∧ r.elem = pElem
      ∧ pElem.content = trimChars ((pDoc.take r.contentEnd).drop r.tagEnd)
      ∧ openTagAt (pDoc.drop r.openStart)
          = some (pElem.tag_name, r.rawAttrs, r.tagEnd - r.openStart)
      ∧ r.openStart < r.tagEnd ∧ r.tagEnd ≤ r.contentEnd
      ∧ litAt (closeTagLit pElem.tag_name) (pDoc.drop r.contentEnd) = true :=
  claim_C6 pDoc ("k".toList) pElem (by decide)

/-- Attribute text with a repeated name and a case-variant name. -/
def dupAttrs : List Char :=
  "href=".toList ++ qD ++ "/b".toList ++ qD ++ " href=".toList ++ qD ++ "/c".toList ++ qD
    ++ " HREF=".toList ++ qD ++ "/d".toList ++ qD

/-- C7: attributes are an ordered association list with no deduplication,
and `get_attr` returns the value of the first pair whose key equals the
queried name exactly and case-sensitively, or nothing when no key
matches. -/
theorem claim_C7 :
    (∀ (e : Element) (n v : List Char),
        e.get_attr n = some v ↔
          ∃ i : Nat, (∃ p : List Char × List Char,
              e.attributes[i]? = some p ∧ p.1 = n ∧ p.2 = v)
            ∧ ∀ j, j < i → ∀ p : List Char × List Char,
                e.attributes[j]? = some p → p.1 ≠ n)
    ∧ (∀ (e : Element) (n : List Char),
        e.get_attr n = none ↔ ∀ p ∈ e.attributes, p.1 ≠ n)
    ∧ parseAttrs dupAttrs
        = [("href".toList, "/b".toList), ("href".toList, "/c".toList),
           ("HREF".toList, "/d".toList)]
    ∧ (Element.mk ("a".toList) (parseAttrs dupAttrs) []).get_attr ("href".toList)
        = some ("/b".toList)
    ∧ (Element.mk ("a".toList) (parseAttrs dupAttrs) []).get_attr ("HREF".toList)
        = some ("/d".toList)
    ∧ (Element.mk ("a".toList) (parseAttrs dupAttrs) []).get_attr ("Href".toList) = none := by
  refine ⟨?_, ?_, by decide, by decide, by decide, by decide⟩
  · intro e n v
    exact find?_key_eq_some_iff e.attributes n v
  · intro e n
    exact find?_key_eq_none_iff e.attributes n

/-! ### C8: panic-freedom via a checked mirror of the two extractors -/

/-- Rust suffix slice `&l[a..]` with its panic condition explicit. -/
def suffixCk (l : List Char) (a : Nat) : Option (List Char) :=
  if a ≤ l.length then some (l.drop a) else none

/-- Rust range slice `&l[a..b]` with its panic condition explicit. -/
def sliceCk (l : List Char) (a b : Nat) : Option (List Char) :=
  if a ≤ b ∧ b ≤ l.length then some ((l.take b).drop a) else none

/-- The scan loop of `find_elements_by_class` with every Rust
string-slice operation checked; `none` models a panic. -/
def findElemsAuxCk (html cls : List Char) : Nat → Nat → Option (List Found)
  | 0, _ => some []
  | fuel + 1, searchPos =>
    match suffixCk html searchPos with
    | none => none
    | some rest =>
      match findOpenTag rest with
      | none => some []
      | some (i, name, attrs, mlen) =>
        if hasClassTok attrs cls then
          match resolveEnd html ('<' :: name) (closeTagLit name) (html.length + 1) 1
              (searchPos + (i + mlen)) with
          | some contentEnd =>
            match sliceCk html (searchPos + (i + mlen)) contentEnd with
            | none => none
            | some raw =>
              match findElemsAuxCk html cls fuel (contentEnd + (closeTagLit name).length) with
              | none => none
              | some tail =>
                some ({ openStart := searchPos + i, tagEnd := searchPos + (i + mlen),
                        contentEnd := contentEnd, rawAttrs := attrs,
                        elem := { tag_name := name, attributes := parseAttrs attrs,
                                  content := trimChars raw } } :: tail)
          | none => findElemsAuxCk html cls fuel (searchPos + (i + mlen))
        else findElemsAuxCk html cls fuel (searchPos + (i + mlen))

/-- `find_elements_by_class` with checked slicing. -/
def find_elements_by_classCk (html cls : List Char) : Option (List Element) :=
  if html.isEmpty || cls.isEmpty then some []
  else (findElemsAuxCk html cls (html.length + 1) 0).map (fun l => l.map Found.elem)

/-- `find_first_anchor` with checked slicing. -/
def find_first_anchorCk (html : List Char) : Option (Option Element) :=
  if html.isEmpty then some none
  else
    match findAnchorOpen html with
    | none => some none
    | some (st, attrs, mlen) =>
      match suffixCk html (st + mlen) with
      | none => none
      | some afterOpen =>
        match findAnchorClose afterOpen with
        | none => some none
        | some c =>
          match sliceCk afterOpen 0 c with
          | none => none
          | some raw =>
            some (some { tag_name := ['a'], attributes := parseAttrs attrs,
                         content := trimChars raw })

theorem findElemsAuxCk_eq (html cls : List Char) :
    ∀ fuel p, p ≤ html.length →
      findElemsAuxCk html cls fuel p = some (findElemsAux html cls fuel p) := by
  intro fuel
  induction fuel with
  | zero => intro p hp; rfl
  | succ fuel ih =>
    intro p hp
    rw [findElemsAuxCk, findElemsAux]
    rw [show suffixCk html p = some (html.drop p) from if_pos hp]
    dsimp only
    cases hfo : findOpenTag (html.drop p) with
    | none => rfl
    | some q =>
      obtain ⟨i, name, attrs, mlen⟩ := q
      dsimp only
      have hb := (findOpenTag_bounds hfo).2.2
      have hdl : (html.drop p).length = html.length - p := by simp
      by_cases hcl : hasClassTok attrs cls = true
      · rw [if_pos hcl, if_pos hcl]
        cases hre : resolveEnd html ('<' :: name) (closeTagLit name) (html.length + 1) 1
            (p + (i + mlen)) with
        | some ce =>
          have hle := resolveEnd_le _ _ _ _ hre
          have hcele := resolveEnd_ce_le _ _ _ _ hre
          have hcb := resolveEnd_close_bound hre
          dsimp only
          rw [show sliceCk html (p + (i + mlen)) ce
              = some ((html.take ce).drop (p + (i + mlen))) from if_pos ⟨by omega, by omega⟩]
          rw [ih (ce + (closeTagLit name).length) (by omega)]
        | none =>
          exact ih (p + (i + mlen)) (by omega)
      · rw [if_neg hcl, if_neg hcl]
        exact ih (p + (i + mlen)) (by omega)

/-- C8: on every input (including arbitrarily malformed HTML) the checked
mirrors of both extractors — in which each Rust string-slice operation
panics explicitly when out of range — succeed and agree with the plain
embeddings: no slice index ever leaves the input, and the functions
return normally. -/
theorem claim_C8 (html cls : List Char) :
    find_elements_by_classCk html cls = some (find_elements_by_class html cls)
    ∧ find_first_anchorCk html = some (find_first_anchor html) := by
  constructor
  · unfold find_elements_by_classCk find_elements_by_class
    by_cases hcond : html.isEmpty || cls.isEmpty
    · rw [if_pos hcond, if_pos hcond]
    · rw [if_neg hcond, if_neg hcond]
      rw [findElemsAuxCk_eq html cls (html.length + 1) 0 (by omega)]
      rfl
  · unfold find_first_anchorCk find_first_anchor
    by_cases hemp : html.isEmpty
    · rw [if_pos hemp, if_pos hemp]
    · rw [if_neg hemp, if_neg hemp]
      cases ho : findAnchorOpen html with
      | none => rfl
      | some t =>
        obtain ⟨st, attrs, mlen⟩ := t
        dsimp only
        have hb := (findAnchorOpen_bounds ho).2.2
        rw [show suffixCk html (st + mlen) = some (html.drop (st + mlen))
            from if_pos (by omega)]
        dsimp only
        cases hc : findAnchorClose (html.drop (st + mlen)) with
        | none => rfl
        | some c =>
          dsimp only
          have hcb := findAnchorClose_le_length hc
          rw [show sliceCk (html.drop (st + mlen)) 0 c
              = some (((html.drop (st + mlen)).take c).drop 0) from if_pos ⟨by omega, by omega⟩]
          rw [List.drop_zero]

/-- Document whose first `<a`-prefixed tag is `<abbr>`, followed by a
well-formed anchor. -/
def abbrDoc : List Char :=
  "<abbr title=".toList ++ qD ++ "T".toList ++ qD ++ ">z</abbr> <a href=".toList
    ++ qD ++ "/x".toList ++ qD ++ ">link</a>".toList

/-- C9: `find_first_anchor`'s opening pattern accepts any tag whose name
starts with `a`.  On `abbrDoc` the match starts at the `<abbr ...>` tag:
the captured attribute text is `bbr title="T"` (the rest of the tag name
prepended to the attribute region), the content runs from that tag to the
first subsequent `</a>`, and `tag_name` is the constant `"a"` — as it is
for every returned element. -/
theorem claim_C9 :
    (∀ (html : List Char) (e : Element), find_first_anchor html = some e →
        e.tag_name = "a".toList)
    ∧ findAnchorOpen abbrDoc
        = some (0, "bbr title=".toList ++ qD ++ "T".toList ++ qD, 16)
    ∧ find_first_anchor abbrDoc
        = some { tag_name := "a".toList,
                 attributes := [("title".toList, "T".toList)],
                 content := "z</abbr> <a href=".toList ++ qD ++ "/x".toList ++ qD
                   ++ ">link".toList } := by
  refine ⟨?_, by decide, by decide⟩
  intro html e h
  unfold find_first_anchor at h
  by_cases hemp : html.isEmpty
  · rw [if_pos hemp] at h; exact absurd h (by simp)
  · rw [if_neg hemp] at h
    cases ho : findAnchorOpen html with
    | none => rw [ho] at h; exact absurd h (by simp)
    | some t =>
      obtain ⟨st, attrs, mlen⟩ := t
      rw [ho] at h
      dsimp only at h
      cases hc : findAnchorClose (html.drop (st + mlen)) with
      | none => rw [hc] at h; exact absurd h (by simp)
      | some c =>
        rw [hc] at h
        dsimp only at h
        rw [← Option.some.inj h]
        rfl

/-- Witness for C9's universal conjunct at the concrete document. -/
theorem claim_C9_witness :
    (Element.mk ("a".toList) [("title".toList, "T".toList)]
        ("z</abbr> <a href=".toList ++ qD ++ "/x".toList ++ qD ++ ">link".toList)).tag_name
      = "a".toList :=
  claim_C9.1 abbrDoc _ claim_C9.2.2

/-- Attribute text `key="val'` with mismatched quote delimiters. -/
def mixQuoteAttrs : List Char := "key=".toList ++ qD ++ "val".toList ++ qS

/-- Attribute text `title="it's fine"` with an apostrophe inside a
double-quoted value. -/
def aposAttrs : List Char :=
  "title=".toList ++ qD ++ "it".toList ++ qS ++ "s fine".toList ++ qD

/-- C10: the attribute pattern shared by both extractors accepts
mismatched quote delimiters and stops a value at the first quote
character of either kind: `key="val'` captures `(key, val)` and
`title="it's fine"` captures `(title, it)`; the same behaviour is
observable through both extractors. -/
theorem claim_C10 :
    parseAttrs mixQuoteAttrs = [("key".toList, "val".toList)]
    ∧ parseAttrs aposAttrs = [("title".toList, "it".toList)]
    ∧ (find_first_anchor ("<a ".toList ++ mixQuoteAttrs ++ ">x</a>".toList)).map
        (fun e => e.attributes) = some [("key".toList, "val".toList)]
    ∧ (find_elements_by_class
          ("<b class=".toList ++ qD ++ "w".toList ++ qD ++ " ".toList ++ aposAttrs
            ++ ">y</b>".toList) ("w".toList)).map (fun e => e.attributes)
        = [[("class".toList, "w".toList), ("title".toList, "it".toList)]] := by
  refine ⟨by decide, by decide, by decide, by decide⟩

end B30
